import Mathlib

/-!
Shallow embedding of the MVGRL node-level training script (src/node/train.py)
over exact rationals. Tensors of shape (batch, nodes, features) are embedded
as functions `Fin B → Fin N → Fin F → ℚ`; the exponential used by sigmoid and
softmax is abstracted as a parameter `rexp : ℚ → ℚ`, so every definition stays
executable. Autograd is modelled only where a claim needs it: a `Tracked`
value carries a `requiresGrad` flag and `detach` clears it.
-/

namespace MVGRL

/-- LeakyReLU with negative slope `alpha` (torch.nn.LeakyReLU). -/
def leakyRelu (alpha x : ℚ) : ℚ := if 0 ≤ x then x else alpha * x

/-- PReLU with a single learned weight `w` (torch.nn.PReLU):
max(0,x) + w * min(0,x). -/
def prelu (w x : ℚ) : ℚ := max 0 x + w * min 0 x

/-- Sigmoid, with the exponential abstracted: 1 / (1 + exp (-x)). -/
def sigmoid (rexp : ℚ → ℚ) (x : ℚ) : ℚ := 1 / (1 + rexp (-x))

/-- torch.mean over one axis: sum of the entries divided by their count. -/
def tmean {N : ℕ} (v : Fin N → ℚ) : ℚ := (∑ n, v n) / (N : ℚ)

namespace Readout

/-- Embedding of Readout.forward (train.py lines 52-57). With no mask it is
torch.mean(seq, 1); with a mask it is torch.mean(seq * msk, 1) / torch.sum(msk),
where the mask is unsqueezed so it broadcasts over the feature axis and
torch.sum(msk) is the sum over the WHOLE mask tensor (all batches and nodes). -/
def forward {B N F : ℕ} (seq : Fin B → Fin N → Fin F → ℚ)
    (msk : Option (Fin B → Fin N → ℚ)) : Fin B → Fin F → ℚ :=
  match msk with
  | none => fun b f => tmean (fun n => seq b n f)
  | some m => fun b f =>
      tmean (fun n => seq b n f * m b n) / (∑ b', ∑ n', m b' n')

end Readout

/-- The masked readout as the spec's words describe it: features times mask,
summed (not averaged) over the node axis, divided by the global mask sum.
Used only to compare the spec's formula with the code's. -/
def specMaskedMean {B N F : ℕ} (seq : Fin B → Fin N → Fin F → ℚ)
    (m : Fin B → Fin N → ℚ) : Fin B → Fin F → ℚ :=
  fun b f => (∑ n, seq b n f * m b n) / (∑ b', ∑ n', m b' n')

/-- Claim C1: the masked Readout is claimed to return, per batch row, the
mask-weighted features summed over the node axis divided by the single global
mask sum. The code instead takes the MEAN over the node axis (sum divided by
the node count) before dividing by the global mask sum; at an all-ones input
with 2 nodes the two differ (1/2 versus 1). -/
theorem readout_mask_counterexample :
    Readout.forward (fun _ _ _ => (1 : ℚ) : Fin 1 → Fin 2 → Fin 1 → ℚ)
        (some (fun _ _ => 1)) 0 0
      ≠ specMaskedMean (fun _ _ _ => (1 : ℚ) : Fin 1 → Fin 2 → Fin 1 → ℚ)
        (fun _ _ => 1) 0 0 := by
  simp only [Readout.forward, specMaskedMean, tmean, Fin.sum_univ_two,
    Fin.sum_univ_one]
  norm_num

/-- Claim C1 (amended): for every feature tensor and non-None mask, the masked
Readout returns, per batch row, the mask-weighted features summed over the node
axis and divided by the number of nodes times the single global scalar sum of
the whole mask (not a per-row sum). -/
theorem readout_mask_global_mean {B N F : ℕ}
    (seq : Fin B → Fin N → Fin F → ℚ) (m : Fin B → Fin N → ℚ)
    (b : Fin B) (f : Fin F) :
    Readout.forward seq (some m) b f
      = (∑ n, seq b n f * m b n) / ((N : ℚ) * (∑ b', ∑ n', m b' n')) := by
  simp only [Readout.forward, tmean]
  rw [div_div]

/-- Parameters of one GCN layer (train.py lines 14-44): a bias-free linear
projection, an optional additive bias, and a PReLU activation weight. -/
structure GCNParams (inF outF : ℕ) where
  weight : Fin outF → Fin inF → ℚ
  bias : Option (Fin outF → ℚ)
  preluWeight : ℚ

namespace GCN

/-- Embedding of GCN.forward on the dense path (train.py lines 36-44):
seq_fts = fc(seq) (nn.Linear without bias, y = x Wᵀ), out = bmm(adj, seq_fts),
optional bias addition, then the PReLU activation. The sparse branch
(torch.spmm for a single-batch sparse adjacency) is not taken in this
training script, which fixes sparse=False. -/
def forward {B N inF outF : ℕ} (p : GCNParams inF outF)
    (seq : Fin B → Fin N → Fin inF → ℚ)
    (adj : Fin B → Fin N → Fin N → ℚ) : Fin B → Fin N → Fin outF → ℚ :=
  let seqFts : Fin B → Fin N → Fin outF → ℚ :=
    fun b n o => ∑ i, seq b n i * p.weight o i
  let out : Fin B → Fin N → Fin outF → ℚ :=
    fun b n o => ∑ m, adj b n m * seqFts b m o
  let outBias : Fin B → Fin N → Fin outF → ℚ :=
    match p.bias with
    | none => out
    | some bv => fun b n o => out b n o + bv o
  fun b n o => prelu p.preluWeight (outBias b n o)

end GCN

/-- Parameters of the discriminator's nn.Bilinear(n_h, n_h, 1)
(train.py line 64). -/
structure DiscParams (H : ℕ) where
  weight : Fin H → Fin H → ℚ
  bias : ℚ

/-- The bilinear form of nn.Bilinear with a single output:
x ↦ y ↦ Σ i j, x i * W i j * y j + b. -/
def bilin {H : ℕ} (p : DiscParams H) (x y : Fin H → ℚ) : ℚ :=
  (∑ i, ∑ j, x i * p.weight i j * y j) + p.bias

/-- torch.cat of four equal-width blocks along one axis. -/
def cat4 {n : ℕ} {α : Type} (s1 s2 s3 s4 : Fin n → α) : Fin (4 * n) → α :=
  fun j =>
    if h1 : (j : ℕ) < n then s1 ⟨j, h1⟩
    else if h2 : (j : ℕ) < 2 * n then s2 ⟨(j : ℕ) - n, by omega⟩
    else if h3 : (j : ℕ) < 3 * n then s3 ⟨(j : ℕ) - 2 * n, by omega⟩
    else s4 ⟨(j : ℕ) - 3 * n, by have := j.isLt; omega⟩

theorem cat4_block1 {n : ℕ} {α : Type} (s1 s2 s3 s4 : Fin n → α)
    (k : ℕ) (hk : k < n) :
    cat4 s1 s2 s3 s4 ⟨k, by omega⟩ = s1 ⟨k, hk⟩ := by
  simp only [cat4]
  rw [dif_pos hk]

theorem cat4_block2 {n : ℕ} {α : Type} (s1 s2 s3 s4 : Fin n → α)
    (k : ℕ) (hk : k < n) :
    cat4 s1 s2 s3 s4 ⟨n + k, by omega⟩ = s2 ⟨k, hk⟩ := by
  simp only [cat4]
  rw [dif_neg (by omega), dif_pos (by omega)]
  congr 1
  exact Fin.ext (by show n + k - n = k; omega)

theorem cat4_block3 {n : ℕ} {α : Type} (s1 s2 s3 s4 : Fin n → α)
    (k : ℕ) (hk : k < n) :
    cat4 s1 s2 s3 s4 ⟨2 * n + k, by omega⟩ = s3 ⟨k, hk⟩ := by
  simp only [cat4]
  rw [dif_neg (by omega), dif_neg (by omega), dif_pos (by omega)]
  congr 1
  exact Fin.ext (by show 2 * n + k - 2 * n = k; omega)

theorem cat4_block4 {n : ℕ} {α : Type} (s1 s2 s3 s4 : Fin n → α)
    (k : ℕ) (hk : k < n) :
    cat4 s1 s2 s3 s4 ⟨3 * n + k, by omega⟩ = s4 ⟨k, hk⟩ := by
  simp only [cat4]
  rw [dif_neg (by omega), dif_neg (by omega), dif_neg (by omega)]
  congr 1
  exact Fin.ext (by show 3 * n + k - 3 * n = k; omega)

namespace Discriminator

/-- Embedding of Discriminator.forward (train.py lines 75-91): each summary
vector is unsqueezed and expanded across the node axis, each node embedding is
scored against the broadcast summary with the bilinear form (first argument
the node embedding, second the summary), and the four per-node score blocks
sc_1 = f_k(h2, c1), sc_2 = f_k(h1, c2), sc_3 = f_k(h4, c1), sc_4 = f_k(h3, c2)
are concatenated along the node axis in that order. The score-bias arguments
s_bias1, s_bias2 are accepted and never used, exactly as in the source. -/
def forward {B N H : ℕ} (p : DiscParams H)
    (c1 c2 : Fin B → Fin H → ℚ)
    (h1 h2 h3 h4 : Fin B → Fin N → Fin H → ℚ)
    (sBias1 sBias2 : Option (Fin B → Fin N → ℚ)) : Fin B → Fin (4 * N) → ℚ :=
  fun b =>
    let sc1 : Fin N → ℚ := fun n => bilin p (h2 b n) (c1 b)
    let sc2 : Fin N → ℚ := fun n => bilin p (h1 b n) (c2 b)
    let sc3 : Fin N → ℚ := fun n => bilin p (h4 b n) (c1 b)
    let sc4 : Fin N → ℚ := fun n => bilin p (h3 b n) (c2 b)
    cat4 sc1 sc2 sc3 sc4

end Discriminator

/-- Claim C3: Discriminator.forward returns a batch × (4 × nodes) logits
tensor laid out as the concatenation, along the node axis, of the per-node
bilinear scores in the fixed order (c1·h2, c2·h1, c1·h4, c2·h3): for every
j < nodes, column j holds bilin (h2 b j) (c1 b), column nodes + j holds
bilin (h1 b j) (c2 b), column 2·nodes + j holds bilin (h4 b j) (c1 b), and
column 3·nodes + j holds bilin (h3 b j) (c2 b) — so the positive pairs occupy
the first 2·nodes columns and the negative pairs the last 2·nodes columns. -/
theorem discriminator_logits_layout {B N H : ℕ} (p : DiscParams H)
    (c1 c2 : Fin B → Fin H → ℚ) (h1 h2 h3 h4 : Fin B → Fin N → Fin H → ℚ)
    (sBias1 sBias2 : Option (Fin B → Fin N → ℚ)) (b : Fin B) (j : Fin N) :
    Discriminator.forward p c1 c2 h1 h2 h3 h4 sBias1 sBias2 b
        ⟨(j : ℕ), by have := j.isLt; omega⟩ = bilin p (h2 b j) (c1 b)
    ∧ Discriminator.forward p c1 c2 h1 h2 h3 h4 sBias1 sBias2 b
        ⟨N + (j : ℕ), by have := j.isLt; omega⟩ = bilin p (h1 b j) (c2 b)
    ∧ Discriminator.forward p c1 c2 h1 h2 h3 h4 sBias1 sBias2 b
        ⟨2 * N + (j : ℕ), by have := j.isLt; omega⟩ = bilin p (h4 b j) (c1 b)
    ∧ Discriminator.forward p c1 c2 h1 h2 h3 h4 sBias1 sBias2 b
        ⟨3 * N + (j : ℕ), by have := j.isLt; omega⟩ = bilin p (h3 b j) (c2 b) := by
  refine ⟨?_, ?_, ?_, ?_⟩
  · exact cat4_block1 (fun n => bilin p (h2 b n) (c1 b))
      (fun n => bilin p (h1 b n) (c2 b)) (fun n => bilin p (h4 b n) (c1 b))
      (fun n => bilin p (h3 b n) (c2 b)) (j : ℕ) j.isLt
  · exact cat4_block2 (fun n => bilin p (h2 b n) (c1 b))
      (fun n => bilin p (h1 b n) (c2 b)) (fun n => bilin p (h4 b n) (c1 b))
      (fun n => bilin p (h3 b n) (c2 b)) (j : ℕ) j.isLt
  · exact cat4_block3 (fun n => bilin p (h2 b n) (c1 b))
      (fun n => bilin p (h1 b n) (c2 b)) (fun n => bilin p (h4 b n) (c1 b))
      (fun n => bilin p (h3 b n) (c2 b)) (j : ℕ) j.isLt
  · exact cat4_block4 (fun n => bilin p (h2 b n) (c1 b))
      (fun n => bilin p (h1 b n) (c2 b)) (fun n => bilin p (h4 b n) (c1 b))
      (fun n => bilin p (h3 b n) (c2 b)) (j : ℕ) j.isLt

/-- Parameters of the full Model (train.py lines 94-103): two independent GCN
encoders, the shared Readout (parameter-free), and the discriminator. -/
structure ModelParams (nIn nH : ℕ) where
  gcn1 : GCNParams nIn nH
  gcn2 : GCNParams nIn nH
  disc : DiscParams nH

/-- A value paired with an autograd flag: `requiresGrad` records whether it is
still attached to the gradient graph. `detach` is torch's Tensor.detach. -/
structure Tracked (α : Type) where
  val : α
  requiresGrad : Bool

/-- Tensor.detach: same value, removed from the gradient graph. -/
def Tracked.detach {α : Type} (t : Tracked α) : Tracked α := ⟨t.val, false⟩

namespace Model

/-- Embedding of Model.forward (train.py lines 105-119): h_1 = gcn1(seq1, adj),
c_1 = sigm(read(h_1, msk)), h_2 = gcn2(seq1, diff), c_2 = sigm(read(h_2, msk)),
h_3 = gcn1(seq2, adj), h_4 = gcn2(seq2, diff); returns the discriminator
logits over (c_1, c_2, h_1, h_2, h_3, h_4, samp_bias1, samp_bias2) together
with h_1 and h_2. -/
def forward {B N nIn nH : ℕ} (rexp : ℚ → ℚ) (p : ModelParams nIn nH)
    (seq1 seq2 : Fin B → Fin N → Fin nIn → ℚ)
    (adj diff : Fin B → Fin N → Fin N → ℚ)
    (msk : Option (Fin B → Fin N → ℚ))
    (sampBias1 sampBias2 : Option (Fin B → Fin N → ℚ)) :
    (Fin B → Fin (4 * N) → ℚ) × (Fin B → Fin N → Fin nH → ℚ)
      × (Fin B → Fin N → Fin nH → ℚ) :=
  let h1 := GCN.forward p.gcn1 seq1 adj
  let c1 := fun b o => sigmoid rexp (Readout.forward h1 msk b o)
  let h2 := GCN.forward p.gcn2 seq1 diff
  let c2 := fun b o => sigmoid rexp (Readout.forward h2 msk b o)
  let h3 := GCN.forward p.gcn1 seq2 adj
  let h4 := GCN.forward p.gcn2 seq2 diff
  (Discriminator.forward p.disc c1 c2 h1 h2 h3 h4 sampBias1 sampBias2, h1, h2)

/-- Embedding of Model.embed (train.py lines 121-126): h_1 = gcn1(seq, adj),
c = read(h_1, msk) (no sigmoid here), h_2 = gcn2(seq, diff); returns
((h_1 + h_2).detach(), c.detach()). Intermediate results carry
requiresGrad = true until detached. -/
def embed {B N nIn nH : ℕ} (p : ModelParams nIn nH)
    (seq : Fin B → Fin N → Fin nIn → ℚ)
    (adj diff : Fin B → Fin N → Fin N → ℚ)
    (msk : Option (Fin B → Fin N → ℚ)) :
    Tracked (Fin B → Fin N → Fin nH → ℚ) × Tracked (Fin B → Fin nH → ℚ) :=
  let h1 : Tracked (Fin B → Fin N → Fin nH → ℚ) :=
    ⟨GCN.forward p.gcn1 seq adj, true⟩
  let c : Tracked (Fin B → Fin nH → ℚ) :=
    ⟨Readout.forward h1.val msk, h1.requiresGrad⟩
  let h2 : Tracked (Fin B → Fin N → Fin nH → ℚ) :=
    ⟨GCN.forward p.gcn2 seq diff, true⟩
  let hsum : Tracked (Fin B → Fin N → Fin nH → ℚ) :=
    ⟨fun b n o => h1.val b n o + h2.val b n o, h1.requiresGrad || h2.requiresGrad⟩
  (hsum.detach, c.detach)

end Model

/-- Claim C4: Model.forward computes h1 = encoder1(seq1, adj),
h2 = encoder2(seq1, diff), h3 = encoder1(seq2, adj) (the negative view goes
through the same encoder as h1), h4 = encoder2(seq2, diff), c1 and c2 the
sigmoid of the readout of h1 and h2, and returns the discriminator logits over
(c1, c2, h1, h2, h3, h4) together with h1 and h2. -/
theorem model_forward_structure {B N nIn nH : ℕ} (rexp : ℚ → ℚ)
    (p : ModelParams nIn nH) (seq1 seq2 : Fin B → Fin N → Fin nIn → ℚ)
    (adj diff : Fin B → Fin N → Fin N → ℚ)
    (msk : Option (Fin B → Fin N → ℚ))
    (sampBias1 sampBias2 : Option (Fin B → Fin N → ℚ)) :
    Model.forward rexp p seq1 seq2 adj diff msk sampBias1 sampBias2
      = (Discriminator.forward p.disc
          (fun b o => sigmoid rexp
            (Readout.forward (GCN.forward p.gcn1 seq1 adj) msk b o))
          (fun b o => sigmoid rexp
            (Readout.forward (GCN.forward p.gcn2 seq1 diff) msk b o))
          (GCN.forward p.gcn1 seq1 adj) (GCN.forward p.gcn2 seq1 diff)
          (GCN.forward p.gcn1 seq2 adj) (GCN.forward p.gcn2 seq2 diff)
          sampBias1 sampBias2,
         GCN.forward p.gcn1 seq1 adj, GCN.forward p.gcn2 seq1 diff) := rfl

/-- Claim C9: the score-bias arguments samp_bias1 and samp_bias2 are accepted
but never used: two Model.forward calls that differ only in those arguments
(including none versus some) return identical outputs. -/
theorem forward_ignores_samp_bias {B N nIn nH : ℕ} (rexp : ℚ → ℚ)
    (p : ModelParams nIn nH) (seq1 seq2 : Fin B → Fin N → Fin nIn → ℚ)
    (adj diff : Fin B → Fin N → Fin N → ℚ)
    (msk : Option (Fin B → Fin N → ℚ))
    (sampBias1 sampBias2 sampBias1' sampBias2' : Option (Fin B → Fin N → ℚ)) :
    Model.forward rexp p seq1 seq2 adj diff msk sampBias1 sampBias2
      = Model.forward rexp p seq1 seq2 adj diff msk sampBias1' sampBias2' := rfl

/-- Claim C7: Model.embed applies encoder 1 to (seq, adj) and encoder 2 to
(seq, diff) on the same features, returns the element-wise sum of the two
encoder outputs as the node representation and the pooled readout of
encoder 1's output as the summary, and both returned tensors are detached
from the gradient graph (requiresGrad = false). -/
theorem embed_detached_sum {B N nIn nH : ℕ} (p : ModelParams nIn nH)
    (seq : Fin B → Fin N → Fin nIn → ℚ)
    (adj diff : Fin B → Fin N → Fin N → ℚ)
    (msk : Option (Fin B → Fin N → ℚ)) :
    (Model.embed p seq adj diff msk).1.requiresGrad = false
    ∧ (Model.embed p seq adj diff msk).2.requiresGrad = false
    ∧ (∀ b n o, (Model.embed p seq adj diff msk).1.val b n o
        = GCN.forward p.gcn1 seq adj b n o + GCN.forward p.gcn2 seq diff b n o)
    ∧ (∀ b o, (Model.embed p seq adj diff msk).2.val b o
        = Readout.forward (GCN.forward p.gcn1 seq adj) msk b o) :=
  ⟨rfl, rfl, fun _ _ _ => rfl, fun _ _ => rfl⟩

/-- Parameters and module state of GraphAttentionLayer (train.py lines
149-163): projection W, attention vector a, LeakyReLU slope alpha, plus the
stored-but-unused dropout rate, concat flag and the module's train/eval
mode. -/
structure GATParams (inF outF : ℕ) where
  W : Fin inF → Fin outF → ℚ
  a : Fin (2 * outF) → ℚ
  alpha : ℚ
  dropout : ℚ
  concat : Bool
  training : Bool

namespace GraphAttentionLayer

/-- h = torch.mm(input, W) (train.py line 166). -/
def proj {N inF outF : ℕ} (p : GATParams inF outF)
    (input : Fin N → Fin inF → ℚ) : Fin N → Fin outF → ℚ :=
  fun n o => ∑ i, input n i * p.W i o

/-- Row (i, j) of a_input (train.py line 169): the concatenation of the
projected vectors of nodes i and j. -/
def aInput {N inF outF : ℕ} (p : GATParams inF outF)
    (input : Fin N → Fin inF → ℚ) (i j : Fin N) : Fin (2 * outF) → ℚ :=
  fun t =>
    if ht : (t : ℕ) < outF then proj p input i ⟨t, ht⟩
    else proj p input j ⟨(t : ℕ) - outF, by have := t.isLt; omega⟩

/-- Raw attention logit e[i, j] (train.py line 170): the attention vector
applied to the concatenated pair, through LeakyReLU. -/
def eMat {N inF outF : ℕ} (p : GATParams inF outF)
    (input : Fin N → Fin inF → ℚ) (i j : Fin N) : ℚ :=
  leakyRelu p.alpha (∑ t, aInput p input i j t * p.a t)

/-- The -9e15 sentinel written over logits of non-edges (train.py line 172). -/
def negSentinel : ℚ := -(9 * 10 ^ 15)

/-- attention before softmax (train.py line 173): keep e[i, j] where
adj[i, j] > 0, else the large negative sentinel. -/
def maskedAtt {N inF outF : ℕ} (p : GATParams inF outF)
    (input : Fin N → Fin inF → ℚ) (adj : Fin N → Fin N → ℚ)
    (i j : Fin N) : ℚ :=
  if 0 < adj i j then eMat p input i j else negSentinel

/-- attention after the row softmax (train.py line 174), with the
exponential abstracted as `rexp`. -/
def softAtt {N inF outF : ℕ} (rexp : ℚ → ℚ) (p : GATParams inF outF)
    (input : Fin N → Fin inF → ℚ) (adj : Fin N → Fin N → ℚ)
    (i j : Fin N) : ℚ :=
  rexp (maskedAtt p input adj i j) / ∑ j', rexp (maskedAtt p input adj i j')

/-- sig_scores (train.py line 176): the attention matrix summed per column
over all rows. -/
def sigScores {N inF outF : ℕ} (rexp : ℚ → ℚ) (p : GATParams inF outF)
    (input : Fin N → Fin inF → ℚ) (adj : Fin N → Fin N → ℚ) :
    Fin N → ℚ :=
  fun j => ∑ i, softAtt rexp p input adj i j

/-- First element of maximal score in a list of candidate indices. -/
def pickMax {N : ℕ} (score : Fin N → ℚ) : List (Fin N) → Option (Fin N)
  | [] => none
  | x :: xs =>
    match pickMax score xs with
    | none => some x
    | some m => if score x < score m then some m else some x

/-- Selection of the k highest-scoring candidates, one maximum at a time
(the semantics of torch.topk restricted to the returned index set). -/
def topkAux {N : ℕ} (score : Fin N → ℚ) : ℕ → List (Fin N) → List (Fin N)
  | 0, _ => []
  | k + 1, rem =>
    match pickMax score rem with
    | none => []
    | some m => m :: topkAux score k (rem.erase m)

/-- torch.topk(score, k) over all N indices, keeping only the index output
as the source does. -/
def topk {N : ℕ} (score : Fin N → ℚ) (k : ℕ) : List (Fin N) :=
  topkAux score k (List.finRange N)

/-- Embedding of GraphAttentionLayer.forward (train.py lines 165-180):
project, score all ordered pairs, mask non-edges with the sentinel,
softmax per row, sum per column, and take the top sig_sample_size indices.
The dropout line is commented out in the source, so neither the dropout rate
nor the training mode is read. -/
def forward {N inF outF : ℕ} (rexp : ℚ → ℚ) (p : GATParams inF outF)
    (input : Fin N → Fin inF → ℚ) (adj : Fin N → Fin N → ℚ)
    (sigSampleSize : ℕ) : List (Fin N) :=
  topk (sigScores rexp p input adj) sigSampleSize

theorem pickMax_mem {N : ℕ} (score : Fin N → ℚ) :
    ∀ (l : List (Fin N)) (m : Fin N), pickMax score l = some m → m ∈ l := by
  intro l
  induction l with
  | nil => intro m h; simp [pickMax] at h
  | cons x xs ih =>
    intro m h
    cases hx : pickMax score xs with
    | none =>
      simp only [pickMax, hx] at h
      injection h with h
      subst h
      exact List.mem_cons_self x xs
    | some m' =>
      simp only [pickMax, hx] at h
      by_cases hc : score x < score m'
      · rw [if_pos hc] at h
        injection h with h
        subst h
        exact List.mem_cons_of_mem x (ih m' hx)
      · rw [if_neg hc] at h
        injection h with h
        subst h
        exact List.mem_cons_self x xs

theorem pickMax_isSome {N : ℕ} (score : Fin N → ℚ) (x : Fin N)
    (xs : List (Fin N)) : ∃ m, pickMax score (x :: xs) = some m := by
  simp only [pickMax]
  cases pickMax score xs with
  | none => exact ⟨x, rfl⟩
  | some m' =>
    by_cases hc : score x < score m'
    · exact ⟨m', if_pos hc⟩
    · exact ⟨x, if_neg hc⟩

theorem pickMax_eq_none {N : ℕ} (score : Fin N → ℚ) :
    ∀ l : List (Fin N), pickMax score l = none → l = [] := by
  intro l h
  cases l with
  | nil => rfl
  | cons x xs =>
    obtain ⟨m, hm⟩ := pickMax_isSome score x xs
    rw [hm] at h
    cases h

theorem pickMax_le {N : ℕ} (score : Fin N → ℚ) :
    ∀ (l : List (Fin N)) (m : Fin N), pickMax score l = some m →
      ∀ y ∈ l, score y ≤ score m := by
  intro l
  induction l with
  | nil => intro m h; simp [pickMax] at h
  | cons x xs ih =>
    intro m h y hy
    cases hx : pickMax score xs with
    | none =>
      have hxs : xs = [] := pickMax_eq_none score xs hx
      subst hxs
      simp only [pickMax, hx] at h
      injection h with h
      subst h
      rcases List.mem_singleton.mp hy with rfl
      exact le_refl _
    | some m' =>
      simp only [pickMax, hx] at h
      by_cases hc : score x < score m'
      · rw [if_pos hc] at h
        injection h with h
        subst h
        rcases List.mem_cons.mp hy with rfl | hy'
        · exact le_of_lt hc
        · exact ih m' hx y hy'
      · rw [if_neg hc] at h
        injection h with h
        subst h
        rcases List.mem_cons.mp hy with rfl | hy'
        · exact le_refl _
        · exact le_trans (ih m' hx y hy') (le_of_not_lt hc)

theorem topkAux_subset {N : ℕ} (score : Fin N → ℚ) :
    ∀ (k : ℕ) (rem : List (Fin N)), topkAux score k rem ⊆ rem := by
  intro k
  induction k with
  | zero => intro rem; simp [topkAux]
  | succ k ih =>
    intro rem
    simp only [topkAux]
    cases hm : pickMax score rem with
    | none => simp
    | some m =>
      intro y hy
      rcases List.mem_cons.mp hy with rfl | hy'
      · exact pickMax_mem score rem y hm
      · exact List.erase_subset _ _ (ih (rem.erase m) hy')

theorem topkAux_length {N : ℕ} (score : Fin N → ℚ) :
    ∀ (k : ℕ) (rem : List (Fin N)),
      (topkAux score k rem).length = min k rem.length := by
  intro k
  induction k with
  | zero => intro rem; simp [topkAux]
  | succ k ih =>
    intro rem
    simp only [topkAux]
    cases rem with
    | nil => simp [pickMax]
    | cons x xs =>
      obtain ⟨m, hm⟩ := pickMax_isSome score x xs
      rw [hm]
      have hmem : m ∈ x :: xs := pickMax_mem score _ m hm
      simp only [List.length_cons, ih]
      rw [List.length_erase_of_mem hmem]
      simp only [List.length_cons]
      omega

theorem topkAux_nodup {N : ℕ} (score : Fin N → ℚ) :
    ∀ (k : ℕ) (rem : List (Fin N)), rem.Nodup →
      (topkAux score k rem).Nodup := by
  intro k
  induction k with
  | zero => intro rem _; simp [topkAux]
  | succ k ih =>
    intro rem hrem
    simp only [topkAux]
    cases hm : pickMax score rem with
    | none => simp
    | some m =>
      refine List.nodup_cons.mpr ⟨?_, ih (rem.erase m) (hrem.erase m)⟩
      intro hmem
      exact hrem.not_mem_erase (topkAux_subset score k (rem.erase m) hmem)

theorem topkAux_maximal {N : ℕ} (score : Fin N → ℚ) :
    ∀ (k : ℕ) (rem : List (Fin N)), rem.Nodup →
      ∀ i ∈ topkAux score k rem, ∀ j ∈ rem, j ∉ topkAux score k rem →
        score j ≤ score i := by
  intro k
  induction k with
  | zero => intro rem _ i hi; simp [topkAux] at hi
  | succ k ih =>
    intro rem hrem i hi j hj hjn
    simp only [topkAux] at hi hjn
    cases hm : pickMax score rem with
    | none => rw [hm] at hi; simp at hi
    | some m =>
      rw [hm] at hi hjn
      have hjm : j ≠ m := by
        intro h
        exact hjn (h ▸ List.mem_cons_self m _)
      have hje : j ∈ rem.erase m := hrem.mem_erase_iff.mpr ⟨hjm, hj⟩
      rcases List.mem_cons.mp hi with rfl | hi'
      · exact pickMax_le score rem i hm j hj
      · exact ih (rem.erase m) (hrem.erase m) i hi' j hje
          (fun h => hjn (List.mem_cons_of_mem m h))

end GraphAttentionLayer

/-- Claim C5: GraphAttentionLayer.forward runs the pipeline projection,
pairwise attention logits, non-edge masking with the sentinel, row softmax,
per-column significance sums (its result is the top-K of sigScores), and for
every adjacency with at least one positive entry per row and every
1 ≤ K ≤ N it returns exactly K pairwise-distinct node indices attaining the
K highest significance scores. -/
theorem attention_sampler_topk {N inF outF : ℕ} (rexp : ℚ → ℚ)
    (p : GATParams inF outF) (input : Fin N → Fin inF → ℚ)
    (adj : Fin N → Fin N → ℚ) (K : ℕ) (hK1 : 1 ≤ K) (hKN : K ≤ N)
    (hadj : ∀ i : Fin N, ∃ j : Fin N, 0 < adj i j) :
    GraphAttentionLayer.forward rexp p input adj K
        = GraphAttentionLayer.topk
            (GraphAttentionLayer.sigScores rexp p input adj) K
    ∧ (GraphAttentionLayer.forward rexp p input adj K).length = K
    ∧ (GraphAttentionLayer.forward rexp p input adj K).Nodup
    ∧ ∀ i ∈ GraphAttentionLayer.forward rexp p input adj K,
        ∀ j : Fin N, j ∉ GraphAttentionLayer.forward rexp p input adj K →
          GraphAttentionLayer.sigScores rexp p input adj j
            ≤ GraphAttentionLayer.sigScores rexp p input adj i := by
  refine ⟨rfl, ?_, ?_, ?_⟩
  · show (GraphAttentionLayer.topkAux _ K (List.finRange N)).length = K
    rw [GraphAttentionLayer.topkAux_length, List.length_finRange]
    omega
  · exact GraphAttentionLayer.topkAux_nodup _ K (List.finRange N)
      (List.nodup_finRange N)
  · intro i hi j hj
    exact GraphAttentionLayer.topkAux_maximal _ K (List.finRange N)
      (List.nodup_finRange N) i hi j (List.mem_finRange j) hj

/-- A one-node attention layer with zero weights and dropout rate 0, used as
a concrete instance. -/
def gatP0 : GATParams 1 1 := ⟨fun _ _ => 0, fun _ => 0, 0, 0, true, true⟩

/-- Same weights as gatP0 but dropout rate 3/5. -/
def gatPd : GATParams 1 1 := ⟨fun _ _ => 0, fun _ => 0, 0, 3 / 5, true, true⟩

/-- Same weights as gatP0 but in eval mode. -/
def gatPe : GATParams 1 1 := ⟨fun _ _ => 0, fun _ => 0, 0, 0, true, false⟩

/-- A concrete one-node feature matrix. -/
def oneFeat : Fin 1 → Fin 1 → ℚ := fun _ _ => 0

/-- A concrete one-node adjacency with a self-loop. -/
def oneAdj : Fin 1 → Fin 1 → ℚ := fun _ _ => 1

/-- A constant stand-in for the abstract exponential. -/
def oneExp : ℚ → ℚ := fun _ => 1

/-- Witness for claim C5 at a one-node graph with a self-loop, K = 1. -/
theorem attention_sampler_topk_witness :
    GraphAttentionLayer.forward oneExp gatP0 oneFeat oneAdj 1
        = GraphAttentionLayer.topk
            (GraphAttentionLayer.sigScores oneExp gatP0 oneFeat oneAdj) 1
    ∧ (GraphAttentionLayer.forward oneExp gatP0 oneFeat oneAdj 1).length = 1
    ∧ (GraphAttentionLayer.forward oneExp gatP0 oneFeat oneAdj 1).Nodup
    ∧ ∀ i ∈ GraphAttentionLayer.forward oneExp gatP0 oneFeat oneAdj 1,
        ∀ j : Fin 1, j ∉ GraphAttentionLayer.forward oneExp gatP0 oneFeat oneAdj 1 →
          GraphAttentionLayer.sigScores oneExp gatP0 oneFeat oneAdj j
            ≤ GraphAttentionLayer.sigScores oneExp gatP0 oneFeat oneAdj i :=
  attention_sampler_topk oneExp gatP0 oneFeat oneAdj 1 (by decide) (by decide)
    (fun i => ⟨0, by norm_num [oneAdj]⟩)

/-- Claim C10: GraphAttentionLayer.forward reads only W, a and alpha: the
stored dropout rate, concat flag and train/eval mode are never applied (the
dropout line is commented out in the source), so two layers identical except
for those fields return identical index lists on the same input. -/
theorem gat_dropout_irrelevant {N inF outF : ℕ} (rexp : ℚ → ℚ)
    (p q : GATParams inF outF) (input : Fin N → Fin inF → ℚ)
    (adj : Fin N → Fin N → ℚ) (K : ℕ)
    (hW : p.W = q.W) (ha : p.a = q.a) (hal : p.alpha = q.alpha) :
    GraphAttentionLayer.forward rexp p input adj K
      = GraphAttentionLayer.forward rexp q input adj K := by
  obtain ⟨pW, pa, pal, pd, pc, pt⟩ := p
  obtain ⟨qW, qa, qal, qd, qc, qt⟩ := q
  cases hW
  cases ha
  cases hal
  rfl

/-- Witness for claim C10: two one-node layers that differ only in their
dropout rate and train/eval mode select the same index list. -/
theorem gat_dropout_irrelevant_witness :
    GraphAttentionLayer.forward oneExp gatPd oneFeat oneAdj 1
      = GraphAttentionLayer.forward oneExp gatPe oneFeat oneAdj 1 :=
  gat_dropout_irrelevant oneExp gatPd gatPe oneFeat oneAdj 1 rfl rfl rfl

/-- numpy/torch advanced indexing of a 2-D tensor with two equal-length index
vectors: m[ids1, ids2] is the vector t ↦ m[ids1[t], ids2[t]]. -/
def advIndex2 {N K : ℕ} {α : Type} (m : Fin N → Fin N → α)
    (ids1 ids2 : Fin K → Fin N) : Fin K → α :=
  fun t => m (ids1 t) (ids2 t)

/-- Assignment of a length-K vector into a K × K slice: the vector broadcasts
along the leading axis, so every row receives the same vector. -/
def broadcastAssign {K : ℕ} {α : Type} (v : Fin K → α) : Fin K → Fin K → α :=
  fun _ c => v c

/-- Per-batch-element gather sampled_ba[bi, :, :] = ba[bi, ids, ids]
(train.py lines 335-336): advanced indexing with [ids, ids] followed by the
broadcast assignment into the K × K slice. -/
def sampledGather {B N K : ℕ} (ba : Fin B → Fin N → Fin N → ℚ)
    (ids : Fin B → Fin K → Fin N) : Fin B → Fin K → Fin K → ℚ :=
  fun bi => broadcastAssign (advIndex2 (ba bi) (ids bi) (ids bi))

/-- Per-batch-element feature gather sampled_bf[bi, :, :] = bf[bi, ids, :]
(train.py line 337): the full selected feature rows. -/
def sampledFeat {B N F K : ℕ} (bf : Fin B → Fin N → Fin F → ℚ)
    (ids : Fin B → Fin K → Fin N) : Fin B → Fin K → Fin F → ℚ :=
  fun bi k f => bf bi (ids bi k) f

/-- Claim C2: for every batch element bi and every length-K index vector ids,
the gather of the sampled adjacency and diffusion submatrices indexes with
[ids, ids]: entry (r, c) of sampled_ba[bi] (and sampled_bd[bi]) is the
diagonal entry ba[bi, ids[c], ids[c]], so all K rows are the same diagonal
vector, while the feature gather takes the K full selected feature rows. -/
theorem gather_diagonal_broadcast {B N K F : ℕ}
    (ba bd : Fin B → Fin N → Fin N → ℚ) (bf : Fin B → Fin N → Fin F → ℚ)
    (ids : Fin B → Fin K → Fin N) (bi : Fin B) :
    (∀ r c : Fin K, sampledGather ba ids bi r c = ba bi (ids bi c) (ids bi c))
    ∧ (∀ r r' c : Fin K,
        sampledGather ba ids bi r c = sampledGather ba ids bi r' c)
    ∧ (∀ r c : Fin K, sampledGather bd ids bi r c = bd bi (ids bi c) (ids bi c))
    ∧ (∀ r r' c : Fin K,
        sampledGather bd ids bi r c = sampledGather bd ids bi r' c)
    ∧ (∀ (k : Fin K) (f : Fin F), sampledFeat bf ids bi k f = bf bi (ids bi k) f) :=
  ⟨fun _ _ => rfl, fun _ _ _ => rfl, fun _ _ => rfl, fun _ _ _ => rfl,
    fun _ _ => rfl⟩

/-- shuf_fts = bf[:, idx, :] (train.py lines 290-291): one permutation idx of
0..K-1 is drawn once per epoch and the same idx indexes the node axis of every
batch element, picking rows out of the first K rows of each S-row window
(S = K + d). -/
def shufFts {B K d F : ℕ} (bf : Fin B → Fin (K + d) → Fin F → ℚ)
    (idx : Equiv.Perm (Fin K)) : Fin B → Fin K → Fin F → ℚ :=
  fun b k f => bf b (Fin.castAdd d (idx k)) f

/-- Claim C8: the shuffled negative features apply one shared permutation of
0..sig_sample_size-1 to the first sig_sample_size node rows of every batch
element's windowed features: row k of every batch element b is row idx(k) of
bf b, the row index idx(k) lies in the fixed-size prefix (idx(k) < K), the
permutation is the same for all batch elements, and it is injective. The
result has shape batch × sig_sample_size × features by its type. -/
theorem shuffle_shared_permutation {B K d F : ℕ}
    (bf : Fin B → Fin (K + d) → Fin F → ℚ) (idx : Equiv.Perm (Fin K)) :
    (∀ (b : Fin B) (k : Fin K) (f : Fin F),
      shufFts bf idx b k f = bf b (Fin.castAdd d (idx k)) f)
    ∧ (∀ k : Fin K, ((Fin.castAdd d (idx k) : Fin (K + d)) : ℕ) < K)
    ∧ (∀ (b b' : Fin B) (k : Fin K) (f : Fin F),
        shufFts bf idx b k f = bf b (Fin.castAdd d (idx k)) f
        ∧ shufFts bf idx b' k f = bf b' (Fin.castAdd d (idx k)) f)
    ∧ (∀ k k' : Fin K, idx k = idx k' → k = k') :=
  ⟨fun _ _ _ => rfl, fun k => (idx k).isLt,
    fun _ _ _ _ => ⟨rfl, rfl⟩, fun _ _ h => idx.injective h⟩

/-- The early-stopping state of the training loop (train.py lines 223-225):
best loss seen, epoch of the best loss, and the wait counter. -/
structure LoopState where
  best : ℚ
  bestT : ℕ
  cnt : ℕ

/-- One epoch's checkpoint bookkeeping (train.py lines 359-365): strict
improvement records the loss and epoch and resets the wait counter to 0;
otherwise the counter is incremented. -/
def epochUpdate (lossE : ℚ) (epoch : ℕ) (s : LoopState) : LoopState :=
  if lossE < s.best then ⟨lossE, epoch, 0⟩ else ⟨s.best, s.bestT, s.cnt + 1⟩

/-- The epoch loop from epoch e with `fuel` epochs left before the epoch limit
(train.py lines 227-370, loss/update bodies abstracted into the per-epoch loss
sequence): each epoch runs epochUpdate and then breaks as soon as the counter
equals patience. Returns (last epoch reached, whether it stopped early, final
state); on fuel exhaustion the first component is one past the last epoch. -/
def runFrom (lossSeq : ℕ → ℚ) (patience : ℕ) :
    ℕ → ℕ → LoopState → ℕ × Bool × LoopState
  | 0, e, s => (e, false, s)
  | fuel + 1, e, s =>
    let s' := epochUpdate (lossSeq e) e s
    if s'.cnt = patience then (e, true, s')
    else runFrom lossSeq patience fuel (e + 1) s'

/-- The whole training loop's early-stopping skeleton: nb_epochs epochs from
epoch 0, best initialised to 1e9, best_t to 0, cnt_wait to 0
(train.py lines 184, 223-225, 227). -/
def trainLoop (lossSeq : ℕ → ℚ) (nbEpochs patience : ℕ) :
    ℕ × Bool × LoopState :=
  runFrom lossSeq patience nbEpochs 0 ⟨10 ^ 9, 0, 0⟩

theorem runFrom_no_improve (lossSeq : ℕ → ℚ) (patience e0 : ℕ)
    (hno : ∀ e, e0 < e → e ≤ e0 + patience → lossSeq e0 ≤ lossSeq e) :
    ∀ (fuel c : ℕ), c < patience → patience - c ≤ fuel →
      runFrom lossSeq patience fuel (e0 + c + 1) ⟨lossSeq e0, e0, c⟩
        = (e0 + patience, true, ⟨lossSeq e0, e0, patience⟩) := by
  intro fuel
  induction fuel with
  | zero => intro c hc hf; omega
  | succ fuel ih =>
    intro c hc hf
    have hle : lossSeq e0 ≤ lossSeq (e0 + c + 1) :=
      hno (e0 + c + 1) (by omega) (by omega)
    have hupd : epochUpdate (lossSeq (e0 + c + 1)) (e0 + c + 1)
        ⟨lossSeq e0, e0, c⟩ = ⟨lossSeq e0, e0, c + 1⟩ := by
      simp only [epochUpdate]
      rw [if_neg (not_lt.mpr hle)]
    simp only [runFrom, hupd]
    by_cases hcp : c + 1 = patience
    · rw [if_pos hcp]
      subst hcp
      rfl
    · rw [if_neg hcp]
      have := ih (c + 1) (by omega) (by omega)
      rw [show e0 + (c + 1) + 1 = e0 + c + 1 + 1 by omega] at this
      exact this

/-- Claim C6: if after some epoch best_t the loop state records best_t as the
best-seen epoch (best = loss best_t, wait counter 0) and no later epoch's loss
is strictly smaller than loss best_t for patience consecutive epochs, then —
provided the epoch limit leaves at least patience more epochs — the loop
breaks exactly at epoch best_t + patience, with the counter having been reset
on the improvement at best_t and incremented on every later epoch. -/
theorem early_stop_at_patience (lossSeq : ℕ → ℚ) (patience e0 fuel : ℕ)
    (s : LoopState) (hs : s = ⟨lossSeq e0, e0, 0⟩) (hpat : 0 < patience)
    (hno : ∀ e, e0 < e → e ≤ e0 + patience → lossSeq e0 ≤ lossSeq e)
    (hfuel : patience ≤ fuel) :
    runFrom lossSeq patience fuel (e0 + 1) s
      = (e0 + patience, true, ⟨lossSeq e0, e0, patience⟩) := by
  subst hs
  have := runFrom_no_improve lossSeq patience e0 hno fuel 0 hpat (by omega)
  rw [show e0 + 0 + 1 = e0 + 1 by omega] at this
  exact this

/-- Witness for claim C6: constant loss 1 after a best epoch 0 with
patience 1 stops exactly at epoch 0 + 1 = 1. -/
theorem early_stop_at_patience_witness :
    runFrom (fun _ => (1 : ℚ)) 1 1 (0 + 1) ⟨1, 0, 0⟩
      = (0 + 1, true, ⟨1, 0, 1⟩) :=
  early_stop_at_patience (fun _ => (1 : ℚ)) 1 0 1 ⟨1, 0, 0⟩ rfl
    (by decide) (fun _ _ _ => le_refl 1) (by decide)

end MVGRL
